import Mathlib

/-! Tag lists of the logging package.

A shallow embedding of `taglist.go`: the `tagLevel` record, the `tagList` slice with its
`sort.Interface` methods, the admission scan `checkTagLevel` and the update `setTagLevel`,
followed by the properties the specification states about them.

Go strings are embedded as Lean strings and compared with the lexicographic order on them;
a Go slice is embedded as the list of its elements, with the nil slice kept apart from the
empty one because `checkTagLevel` tests for it.
-/

namespace Logging

/-! ## Data model -/

/-- Modelled from the spec: the declaration of `LogLevel` is not part of the sources at hand.
The spec describes a totally ordered severity `DEBUG < INFO < WARN < ERROR`; it is taken as an
unsigned integer, the four names being its first four values. -/
abbrev LogLevel := Nat

/-- Modelled from the spec: lowest severity of `DEBUG < INFO < WARN < ERROR`. -/
def DEBUG : LogLevel := 0

/-- Modelled from the spec: second severity of `DEBUG < INFO < WARN < ERROR`. -/
def INFO : LogLevel := 1

/-- Modelled from the spec: third severity of `DEBUG < INFO < WARN < ERROR`. -/
def WARN : LogLevel := 2

/-- Modelled from the spec: highest severity of `DEBUG < INFO < WARN < ERROR`. -/
def ERROR : LogLevel := 3

/-- Go's `<` on strings: lexicographic comparison of the two character sequences. -/
def strLess (a b : String) : Bool := decide (a.toList < b.toList)

/-- A tagLevel represents a single setting for a logger (`type tagLevel struct`). -/
structure tagLevel where
  tag : String
  level : LogLevel
deriving DecidableEq, Repr

/-- A tagList holds a full set of tagLevels for a logger (`type tagList []tagLevel`).
`null` is the nil slice, `slice xs` a non-nil slice holding `xs`. -/
inductive tagList where
  | null : tagList
  | slice (xs : List tagLevel) : tagList
deriving DecidableEq, Repr

namespace tagList

/-- The elements of the slice, in order; the nil slice has none. -/
def entries : tagList → List tagLevel
  | null => []
  | slice xs => xs

/-- Go: `func (p tagList) Len() int { return len(p) }`. -/
def Len (p : tagList) : Nat := p.entries.length

/-- Go: `func (p tagList) Less(i, j int) bool { return p[i].tag < p[j].tag }`.
An index out of range makes the Go code stop; that is `none` here. -/
def Less (p : tagList) (i j : Nat) : Option Bool :=
  match p.entries[i]?, p.entries[j]? with
  | some a, some b => some (strLess a.tag b.tag)
  | _, _ => none

/-- Go: `func (p tagList) Swap(i, j int) { p[i], p[j] = p[j], p[i] }`, as the contents of the
slice afterwards. An index out of range makes the Go code stop; that is `none` here. -/
def Swap (p : tagList) (i j : Nat) : Option (List tagLevel) :=
  match p.entries[i]?, p.entries[j]? with
  | some a, some b => some ((p.entries.set i b).set j a)
  | _, _ => none

end tagList

/-! ## checkTagLevel -/

/-- The inner loop of `checkTagLevel`, for the entry `e = p[i]`:
`for j:=0; j<lo; j++ { if p[i].tag == o[j] && p[i].level <= level { return true } }`.
The result tells whether the loop returned true. -/
def checkInner (e : tagLevel) (level : LogLevel) : List String → Bool
  | [] => false
  | s :: rest => if e.tag = s ∧ e.level ≤ level then true else checkInner e level rest

/-- The outer loop of `checkTagLevel`: `for i:=0; i<lp; i++ { ... }` followed by
`return false`. -/
def checkOuter (level : LogLevel) (o : List String) : List tagLevel → Bool
  | [] => false
  | e :: rest => if checkInner e level o then true else checkOuter level o rest

/-- Go: `func (p tagList) checkTagLevel(level LogLevel, o []string) bool`. -/
def tagList.checkTagLevel (p : tagList) (level : LogLevel) (o : List String) : Bool :=
  match p with
  | tagList.null => false
  | tagList.slice xs => checkOuter level o xs

/-! ## setTagLevel -/

/-- The loop of `setTagLevel`:
`for i:=0;i<l;i++ { if p[i].tag == tag { p[i].level = level; return p } }`.
The result is the updated contents when the loop returned, `none` when it ran to its end. -/
def setExisting (tag : String) (level : LogLevel) : List tagLevel → Option (List tagLevel)
  | [] => none
  | e :: rest =>
    if e.tag = tag then some ({ e with level := level } :: rest)
    else (setExisting tag level rest).map (fun r => e :: r)

/-- The inner loop of the library's insertion sort, driven by `Less` and `Swap`:
`for j := i; j > a && data.Less(j, j-1); j-- { data.Swap(j, j-1) }`.
The element `x` stands at position `j`; the elements before it are given nearest first
(`data[j-1]`, `data[j-2]`, ...), and so is the result. -/
def sinkLeft (x : tagLevel) : List tagLevel → List tagLevel
  | [] => [x]
  | y :: before => if strLess x.tag y.tag then y :: sinkLeft x before else x :: y :: before

/-- The call `sort.Sort(ret)`. The routine belongs to Go's standard library, not to the
package; it is embedded as the library's insertion sort (the routine it runs on short slices),
which orders the slice using only `Less` and `Swap` of `tagList`:
`for i := a + 1; i < b; i++ { inner loop }`. -/
def sortSort (xs : List tagLevel) : List tagLevel :=
  (xs.foldl (fun before x => sinkLeft x before) []).reverse

/-- Go: `func (p tagList) setTagLevel(tag string, level LogLevel) tagList`. -/
def tagList.setTagLevel (p : tagList) (tag : String) (level : LogLevel) : tagList :=
  match setExisting tag level p.entries with
  | some xs => tagList.slice xs
  | none => tagList.slice (sortSort (p.entries ++ [{ tag := tag, level := level }]))

/-! ## Appender level check -/

/-- Modelled from the spec: the appender types and their `SetLevel` and `CheckLevel` are not
part of the sources at hand (only their test is). The spec gives every appender a level of
its own next to its formatter and variant-specific output state, gathered here in `rest`. -/
structure Appender (σ : Type) where
  level : LogLevel
  rest : σ

/-- Modelled from the spec: `SetLevel` (absent from the sources) replaces the appender's own
minimum level and nothing else. -/
def Appender.SetLevel {σ : Type} (a : Appender σ) (l : LogLevel) : Appender σ :=
  { a with level := l }

/-- Modelled from the spec: `CheckLevel` (absent from the sources) is the appender's own
`level ≤ event.level` check: an event at level E is admitted by threshold T iff T ≤ E. -/
def Appender.CheckLevel {σ : Type} (a : Appender σ) (l : LogLevel) : Bool :=
  decide (a.level ≤ l)

/-! ## Properties stated over the embedding -/

/-- The list is in ascending order of tag (ties allowed). -/
def ascendingByTag (xs : List tagLevel) : Prop :=
  List.Pairwise (fun a b => a.tag ≤ b.tag) xs

/-- The list is strictly ascending by tag: ascending, and no tag twice. -/
def strictlyAscendingByTag (xs : List tagLevel) : Prop :=
  List.Pairwise (fun a b => a.tag < b.tag) xs

/-- The tags of the entries, in order. -/
def tagsOf (xs : List tagLevel) : List String := xs.map tagLevel.tag

/-- The tag list obtained from `p` by the calls `setTagLevel(t, l)` for the pairs of `calls`,
in order, each applied to the list the previous one returned. -/
def setTagLevels (p : tagList) (calls : List (String × LogLevel)) : tagList :=
  calls.foldl (fun q c => q.setTagLevel c.1 c.2) p

/-- The entry `e` with its level replaced by `l` when its tag is `t`, and `e` itself when
it is not. -/
def relevel (t : String) (l : LogLevel) (e : tagLevel) : tagLevel :=
  if e.tag = t then { tag := t, level := l } else e

/-- The final tag-to-level mapping of a sequence of `setTagLevel` calls: the level of the
last call made for tag `t`, `none` when no call names `t`. -/
def lastLevel (t : String) : List (String × LogLevel) → Option LogLevel
  | [] => none
  | c :: rest =>
    match lastLevel t rest with
    | some l => some l
    | none => if c.1 = t then some c.2 else none

/-! ## Formats and formatters -/

/-- Modelled from the spec: the declaration of `LogFormat` is not part of the sources at hand.
The spec names the variants FULL, SIMPLE, MINIMAL and MINIMALTAGGED; the test also builds a
value from another string, `LogFormat("foo")`, which is `unknown "foo"` here. -/
inductive LogFormat where
  | FULL : LogFormat
  | SIMPLE : LogFormat
  | MINIMAL : LogFormat
  | MINIMALTAGGED : LogFormat
  | unknown (name : String) : LogFormat
deriving DecidableEq, Repr

/-- The characters of `s` with the letters A to Z replaced by a to z. -/
def lowerCase (s : String) : List Char := s.toList.map Char.toLower

/-- Modelled from the spec: `FormatFromString` is not part of the sources at hand (only its
test is). The spec describes a case-insensitive parser that maps strings to variants, unknown
strings yielding SIMPLE; letter case is that of the letters A to Z. -/
def FormatFromString (s : String) : LogFormat :=
  if lowerCase s = lowerCase "full" then LogFormat.FULL
  else if lowerCase s = lowerCase "simple" then LogFormat.SIMPLE
  else if lowerCase s = lowerCase "minimal" then LogFormat.MINIMAL
  else if lowerCase s = lowerCase "minimaltagged" then LogFormat.MINIMALTAGGED
  else LogFormat.SIMPLE

/-- Modelled from the spec: a formatter is a pure function
`(level, tags, message, timestamp, original_timestamp) → string`; the type of the formatter
values is not part of the sources at hand. Instants are values of a type `τ`. -/
abbrev LogFormatter (τ : Type) := LogLevel → List String → String → τ → τ → String

/-- Modelled from the spec: the four package variables `fullFormat`, `simpleFormat`,
`minimalWithTagsFormat` and `minimalFormat` that hold the formatters (the test assigns to
them); their declarations are not part of the sources at hand. -/
structure FormatterTable (τ : Type) where
  fullFormat : LogFormatter τ
  simpleFormat : LogFormatter τ
  minimalWithTagsFormat : LogFormatter τ
  minimalFormat : LogFormatter τ

/-- Modelled from the spec: `GetFormatter` is not part of the sources at hand (only its test
is). It returns the function that corresponds to the variant, as the table holds it when
the call is made; unknown variants map to SIMPLE. -/
def GetFormatter {τ : Type} (v : FormatterTable τ) (f : LogFormat) : LogFormatter τ :=
  match f with
  | LogFormat.FULL => v.fullFormat
  | LogFormat.SIMPLE => v.simpleFormat
  | LogFormat.MINIMALTAGGED => v.minimalWithTagsFormat
  | LogFormat.MINIMAL => v.minimalFormat
  | LogFormat.unknown _ => v.simpleFormat

/-- Modelled from the spec: what the formatters take from outside their own code, absent from
the sources at hand: the name a level is printed with (`<LEVEL>`) and the rendering of an
instant in the local time zone with millisecond precision (`<MMM DD HH:MM:SS.mmm>`). -/
structure Rendering (τ : Type) where
  levelName : LogLevel → String
  stamp : τ → String

/-- The text `s` between square brackets. -/
def bracket (s : String) : String := "[" ++ s ++ "]"

/-- The tags bracket of the FULL and MINIMALTAGGED renderings: the tags joined by a single
space, between brackets; omitted when the tag sequence is empty (or nil). -/
def tagsBracket (tags : List String) : List String :=
  if tags.isEmpty then [] else [bracket (" ".intercalate tags)]

/-- Modelled from the spec: `minimalWithTagsFormat` is not part of the sources at hand (only
its test is). MINIMALTAGGED renders `[<LEVEL>] [<tags>] <message>`, the tags bracket omitted
when empty; no time, no replay marker. The parts are separated by one space. -/
def minimalWithTagsFormat {τ : Type} (r : Rendering τ) : LogFormatter τ :=
  fun level tags message _ _ =>
    " ".intercalate ([bracket (r.levelName level)] ++ tagsBracket tags ++ [message])

/-- Modelled from the spec: `fullFormat` is not part of the sources at hand (only its test
is). FULL renders `[<time>] [<LEVEL>] [<tags>] [replayed from <time>] <message>`; the tags
bracket is omitted when the tag sequence is empty and the "replayed from" bracket when
`timestamp == original_timestamp`. The parts are separated by one space. -/
def fullFormat {τ : Type} [DecidableEq τ] (r : Rendering τ) : LogFormatter τ :=
  fun level tags message t original =>
    " ".intercalate ([bracket (r.stamp t), bracket (r.levelName level)] ++ tagsBracket tags
      ++ (if t = original then [] else [bracket ("replayed from " ++ r.stamp original)])
      ++ [message])

/-- Whether two character sequences are equal ignoring the case of the letters A to Z. -/
def equalsIgnoringCaseAux : List Char → List Char → Bool
  | [], [] => true
  | a :: as, b :: bs => a.toLower == b.toLower && equalsIgnoringCaseAux as bs
  | _, _ => false

/-- Whether two strings are equal ignoring the case of the letters A to Z. -/
def equalsIgnoringCase (a b : String) : Bool := equalsIgnoringCaseAux a.toList b.toList

/-- The rendering seen in the formatter tests, instants being seconds since the epoch: the
four level names, and the Pacific-time stamps of the two instants the tests use, `at`
(1000 s) and `original` (one day later). -/
def testRendering : Rendering Nat where
  levelName := fun l =>
    if l = DEBUG then "DEBUG" else if l = INFO then "INFO" else if l = WARN then "WARN"
    else "ERROR"
  stamp := fun t => if t = 1000 then "Dec 31 16:16:40.000" else "Jan  1 16:16:40.000"

/-! ## Auxiliary facts -/

theorem strLess_iff (a b : String) : strLess a b = true ↔ a < b := by
  unfold strLess
  rw [decide_eq_true_iff, String.lt_iff_toList_lt]

theorem strLess_false_iff (a b : String) : strLess a b = false ↔ b ≤ a := by
  rw [← not_lt, ← strLess_iff, Bool.not_eq_true]

instance (xs : List tagLevel) : Decidable (strictlyAscendingByTag xs) :=
  decidable_of_iff (List.Pairwise (fun a b => strLess a.tag b.tag = true) xs)
    (by unfold strictlyAscendingByTag; simp only [strLess_iff])

instance (xs : List tagLevel) : Decidable (ascendingByTag xs) :=
  decidable_of_iff (List.Pairwise (fun a b => strLess b.tag a.tag = false) xs)
    (by unfold ascendingByTag; simp only [strLess_false_iff])

theorem checkInner_iff (e : tagLevel) (level : LogLevel) (o : List String) :
    checkInner e level o = true ↔ e.tag ∈ o ∧ e.level ≤ level := by
  induction o with
  | nil => simp [checkInner]
  | cons s rest ih =>
    unfold checkInner
    by_cases h : e.tag = s ∧ e.level ≤ level
    · rw [if_pos h]
      simp [h.1, h.2]
    · rw [if_neg h, ih, List.mem_cons]
      constructor
      · rintro ⟨hm, hl⟩
        exact ⟨Or.inr hm, hl⟩
      · rintro ⟨hm | hm, hl⟩
        · exact absurd ⟨hm, hl⟩ h
        · exact ⟨hm, hl⟩

theorem checkOuter_iff (level : LogLevel) (o : List String) (xs : List tagLevel) :
    checkOuter level o xs = true ↔ ∃ e ∈ xs, e.tag ∈ o ∧ e.level ≤ level := by
  induction xs with
  | nil => simp [checkOuter]
  | cons e rest ih =>
    unfold checkOuter
    by_cases h : checkInner e level o = true
    · rw [if_pos h]
      simp only [true_iff]
      exact ⟨e, List.mem_cons_self _ _, (checkInner_iff e level o).1 h⟩
    · rw [if_neg h, ih]
      constructor
      · rintro ⟨a, ha, hp⟩
        exact ⟨a, List.mem_cons_of_mem _ ha, hp⟩
      · rintro ⟨a, ha, hp⟩
        rcases List.mem_cons.1 ha with rfl | ha
        · exact absurd ((checkInner_iff a level o).2 hp) h
        · exact ⟨a, ha, hp⟩

theorem checkTagLevel_iff (p : tagList) (level : LogLevel) (o : List String) :
    p.checkTagLevel level o = true ↔ ∃ e ∈ p.entries, e.tag ∈ o ∧ e.level ≤ level := by
  cases p with
  | null => simp [tagList.checkTagLevel, tagList.entries]
  | slice xs => exact checkOuter_iff level o xs

theorem sinkLeft_perm (x : tagLevel) (ys : List tagLevel) :
    (sinkLeft x ys).Perm (x :: ys) := by
  induction ys with
  | nil => exact List.Perm.refl _
  | cons y before ih =>
    unfold sinkLeft
    by_cases h : strLess x.tag y.tag = true
    · rw [if_pos h]
      exact (List.Perm.cons y ih).trans (List.Perm.swap x y before)
    · rw [if_neg h]

theorem sinkLeft_descending (x : tagLevel) (ys : List tagLevel)
    (h : List.Pairwise (fun a b => b.tag ≤ a.tag) ys) :
    List.Pairwise (fun a b => b.tag ≤ a.tag) (sinkLeft x ys) := by
  induction ys with
  | nil => simp [sinkLeft]
  | cons y before ih =>
    rw [List.pairwise_cons] at h
    unfold sinkLeft
    by_cases hxy : strLess x.tag y.tag = true
    · rw [if_pos hxy, List.pairwise_cons]
      refine ⟨?_, ih h.2⟩
      intro b hb
      rcases List.mem_cons.1 ((sinkLeft_perm x before).mem_iff.1 hb) with rfl | hb
      · exact le_of_lt ((strLess_iff _ _).1 hxy)
      · exact h.1 b hb
    · rw [if_neg hxy, List.pairwise_cons, List.pairwise_cons]
      have hyx : y.tag ≤ x.tag := (strLess_false_iff _ _).1 (Bool.not_eq_true _ ▸ hxy)
      refine ⟨?_, h.1, h.2⟩
      intro b hb
      rcases List.mem_cons.1 hb with rfl | hb
      · exact hyx
      · exact le_trans (h.1 b hb) hyx

theorem foldl_sinkLeft_perm (xs acc : List tagLevel) :
    (xs.foldl (fun before x => sinkLeft x before) acc).Perm (acc ++ xs) := by
  induction xs generalizing acc with
  | nil => simp
  | cons x rest ih =>
    rw [List.foldl_cons]
    refine (ih (sinkLeft x acc)).trans ?_
    refine ((sinkLeft_perm x acc).append_right rest).trans ?_
    simp only [List.cons_append]
    exact (List.perm_middle).symm

theorem foldl_sinkLeft_descending (xs acc : List tagLevel)
    (h : List.Pairwise (fun a b => b.tag ≤ a.tag) acc) :
    List.Pairwise (fun a b => b.tag ≤ a.tag)
      (xs.foldl (fun before x => sinkLeft x before) acc) := by
  induction xs generalizing acc with
  | nil => exact h
  | cons x rest ih =>
    rw [List.foldl_cons]
    exact ih _ (sinkLeft_descending x acc h)

theorem sortSort_perm (xs : List tagLevel) : (sortSort xs).Perm xs := by
  unfold sortSort
  refine (List.reverse_perm _).trans ?_
  simpa using foldl_sinkLeft_perm xs []

theorem sortSort_ascending (xs : List tagLevel) : ascendingByTag (sortSort xs) := by
  unfold sortSort ascendingByTag
  rw [List.pairwise_reverse]
  exact foldl_sinkLeft_descending xs [] List.Pairwise.nil

theorem ascendingByTag_iff (xs : List tagLevel) :
    ascendingByTag xs ↔ List.Pairwise (fun a b : String => a ≤ b) (tagsOf xs) := by
  unfold ascendingByTag tagsOf
  rw [List.pairwise_map]

theorem strictlyAscendingByTag_iff (xs : List tagLevel) :
    strictlyAscendingByTag xs ↔ List.Pairwise (fun a b : String => a < b) (tagsOf xs) := by
  unfold strictlyAscendingByTag tagsOf
  rw [List.pairwise_map]

theorem setExisting_eq_none (tag : String) (level : LogLevel) (xs : List tagLevel)
    (h : tag ∉ tagsOf xs) : setExisting tag level xs = none := by
  induction xs with
  | nil => rfl
  | cons e rest ih =>
    unfold tagsOf at h ih
    rw [List.map_cons, List.mem_cons, not_or] at h
    unfold setExisting
    rw [if_neg (fun he => h.1 he.symm), ih h.2]
    rfl

theorem setExisting_of_mem (tag : String) (level : LogLevel) (xs : List tagLevel)
    (h : tag ∈ tagsOf xs) :
    ∃ i e, xs[i]? = some e ∧ e.tag = tag ∧
      (∀ j e', j < i → xs[j]? = some e' → e'.tag ≠ tag) ∧
      setExisting tag level xs = some (xs.set i ⟨tag, level⟩) := by
  induction xs with
  | nil => simp [tagsOf] at h
  | cons e rest ih =>
    by_cases he : e.tag = tag
    · refine ⟨0, e, List.getElem?_cons_zero, he, ?_, ?_⟩
      · intro j e' hj
        exact absurd hj (Nat.not_lt_zero j)
      · unfold setExisting
        rw [if_pos he, List.set_cons_zero, ← he]
    · have hr : tag ∈ tagsOf rest := by
        unfold tagsOf at h ⊢
        rw [List.map_cons, List.mem_cons] at h
        rcases h with h | h
        · exact absurd h.symm he
        · exact h
      obtain ⟨i, e₁, hi, ht, hfirst, hset⟩ := ih hr
      refine ⟨i + 1, e₁, by simpa using hi, ht, ?_, ?_⟩
      · intro j e' hj hje
        cases j with
        | zero =>
          simp only [List.getElem?_cons_zero, Option.some.injEq] at hje
          rw [← hje]
          exact he
        | succ k =>
          rw [List.getElem?_cons_succ] at hje
          exact hfirst k e' (Nat.lt_of_succ_lt_succ hj) hje
      · unfold setExisting
        rw [if_neg he, hset, List.set_cons_succ]
        rfl

theorem lt_length_of_getElem? {α : Type} (xs : List α) (i : Nat) (b : α)
    (h : xs[i]? = some b) : i < xs.length := by
  by_contra hc
  rw [List.getElem?_eq_none (not_lt.1 hc)] at h
  cases h

theorem mem_of_getElem? {α : Type} (xs : List α) (i : Nat) (b : α)
    (h : xs[i]? = some b) : b ∈ xs := by
  obtain ⟨hi, hb⟩ := List.getElem?_eq_some.1 h
  exact hb ▸ List.getElem_mem hi

theorem set_eq_self {α : Type} (xs : List α) (i : Nat) (a : α) (h : xs[i]? = some a) :
    xs.set i a = xs := by
  apply List.ext_getElem?
  intro j
  rw [List.getElem?_set]
  by_cases hj : i = j
  · subst hj
    rw [if_pos rfl, if_pos (lt_length_of_getElem? xs i a h), h]
  · rw [if_neg hj]

theorem getElem?_set_at {α : Type} (xs : List α) (i : Nat) (a b : α)
    (h : xs[i]? = some b) : (xs.set i a)[i]? = some a := by
  rw [List.getElem?_set, if_pos rfl, if_pos (lt_length_of_getElem? xs i b h)]

theorem tagsOf_set (xs : List tagLevel) (i : Nat) (e : tagLevel) (l : LogLevel)
    (h : xs[i]? = some e) : tagsOf (xs.set i ⟨e.tag, l⟩) = tagsOf xs := by
  unfold tagsOf
  rw [List.map_set]
  apply set_eq_self
  rw [List.getElem?_map, h]
  rfl

theorem setTagLevel_of_mem (p : tagList) (t : String) (l : LogLevel)
    (h : t ∈ tagsOf p.entries) :
    ∃ i e, p.entries[i]? = some e ∧ e.tag = t ∧
      (∀ j e', j < i → p.entries[j]? = some e' → e'.tag ≠ t) ∧
      p.setTagLevel t l = tagList.slice (p.entries.set i ⟨t, l⟩) := by
  obtain ⟨i, e, hi, ht, hfirst, hset⟩ := setExisting_of_mem t l p.entries h
  refine ⟨i, e, hi, ht, hfirst, ?_⟩
  unfold tagList.setTagLevel
  rw [hset]

theorem setTagLevel_of_not_mem (p : tagList) (t : String) (l : LogLevel)
    (h : t ∉ tagsOf p.entries) :
    p.setTagLevel t l = tagList.slice (sortSort (p.entries ++ [⟨t, l⟩])) := by
  unfold tagList.setTagLevel
  rw [setExisting_eq_none t l p.entries h]

theorem setTagLevel_strict (p : tagList) (t : String) (l : LogLevel)
    (h : strictlyAscendingByTag p.entries) :
    strictlyAscendingByTag (p.setTagLevel t l).entries := by
  by_cases hm : t ∈ tagsOf p.entries
  · obtain ⟨i, e, hi, ht, _, hset⟩ := setTagLevel_of_mem p t l hm
    rw [hset, strictlyAscendingByTag_iff]
    show List.Pairwise _ (tagsOf (p.entries.set i ⟨t, l⟩))
    rw [← ht, tagsOf_set _ _ _ _ hi, ← strictlyAscendingByTag_iff]
    exact h
  · rw [setTagLevel_of_not_mem p t l hm, strictlyAscendingByTag_iff]
    show List.Pairwise _ (tagsOf (sortSort (p.entries ++ [⟨t, l⟩])))
    have hperm : (tagsOf (sortSort (p.entries ++ [⟨t, l⟩]))).Perm (tagsOf p.entries ++ [t]) := by
      have := (sortSort_perm (p.entries ++ [⟨t, l⟩])).map tagLevel.tag
      simpa [tagsOf] using this
    have hnd : (tagsOf p.entries ++ [t]).Nodup := by
      have h₁ : (tagsOf p.entries).Nodup :=
        ((strictlyAscendingByTag_iff _).1 h).imp (fun hab => ne_of_lt hab)
      rw [List.nodup_append]
      refine ⟨h₁, List.nodup_singleton t, ?_⟩
      intro a ha hb
      rw [List.mem_singleton] at hb
      exact hm (hb ▸ ha)
    exact List.Sorted.lt_of_le ((ascendingByTag_iff _).1 (sortSort_ascending _))
      (hperm.nodup_iff.2 hnd)

theorem setTagLevels_strict (calls : List (String × LogLevel)) (p : tagList)
    (h : strictlyAscendingByTag p.entries) :
    strictlyAscendingByTag (setTagLevels p calls).entries := by
  induction calls generalizing p with
  | nil => exact h
  | cons c rest ih =>
    unfold setTagLevels
    rw [List.foldl_cons]
    exact ih _ (setTagLevel_strict p c.1 c.2 h)

theorem checkTagLevel_congr (p p' : tagList) (level : LogLevel) (o o' : List String)
    (hp : ∀ e, e ∈ p'.entries ↔ e ∈ p.entries) (ho : ∀ s, s ∈ o' ↔ s ∈ o) :
    p'.checkTagLevel level o' = p.checkTagLevel level o := by
  rw [Bool.eq_iff_iff, checkTagLevel_iff, checkTagLevel_iff]
  constructor
  · rintro ⟨e, he, ht, hl⟩
    exact ⟨e, (hp e).1 he, (ho _).1 ht, hl⟩
  · rintro ⟨e, he, ht, hl⟩
    exact ⟨e, (hp e).2 he, (ho _).2 ht, hl⟩

theorem checkTagLevel_of_entries_nil (p : tagList) (level : LogLevel) (o : List String)
    (h : p.entries = []) : p.checkTagLevel level o = false := by
  rw [← Bool.not_eq_true, checkTagLevel_iff, h]
  simp

theorem CheckLevel_SetLevel_iff {σ : Type} (a : Appender σ) (T E : LogLevel) :
    (a.SetLevel T).CheckLevel E = true ↔ T ≤ E := by
  unfold Appender.CheckLevel Appender.SetLevel
  exact decide_eq_true_iff

theorem mem_set_of_tag_ne (xs : List tagLevel) (i : Nat) (e₀ : tagLevel) (t : String)
    (l : LogLevel) (hi : xs[i]? = some e₀) (ht : e₀.tag = t) (e : tagLevel) (he : e.tag ≠ t) :
    e ∈ xs.set i ⟨t, l⟩ ↔ e ∈ xs := by
  rw [List.mem_iff_getElem?, List.mem_iff_getElem?]
  constructor
  · rintro ⟨n, hn⟩
    by_cases hni : n = i
    · subst hni
      rw [getElem?_set_at _ _ _ _ hi] at hn
      exact absurd (Option.some.inj hn ▸ rfl) he
    · rw [List.getElem?_set_ne (Ne.symm hni)] at hn
      exact ⟨n, hn⟩
  · rintro ⟨n, hn⟩
    have hni : n ≠ i := by
      rintro rfl
      rw [hi] at hn
      exact he (Option.some.inj hn ▸ ht)
    exact ⟨n, by rw [List.getElem?_set_ne (Ne.symm hni)]; exact hn⟩

theorem mem_setTagLevel_of_ne (p : tagList) (t : String) (l : LogLevel) (e : tagLevel)
    (he : e.tag ≠ t) : e ∈ (p.setTagLevel t l).entries ↔ e ∈ p.entries := by
  by_cases hm : t ∈ tagsOf p.entries
  · obtain ⟨i, e₀, hi, ht, _, hset⟩ := setTagLevel_of_mem p t l hm
    rw [hset]
    exact mem_set_of_tag_ne p.entries i e₀ t l hi ht e he
  · rw [setTagLevel_of_not_mem p t l hm]
    show e ∈ sortSort (p.entries ++ [⟨t, l⟩]) ↔ e ∈ p.entries
    rw [(sortSort_perm _).mem_iff, List.mem_append, List.mem_singleton]
    constructor
    · rintro (h | h)
      · exact h
      · exact absurd (h ▸ rfl) he
    · exact Or.inl

theorem self_mem_setTagLevel (p : tagList) (t : String) (l : LogLevel) :
    (⟨t, l⟩ : tagLevel) ∈ (p.setTagLevel t l).entries := by
  by_cases hm : t ∈ tagsOf p.entries
  · obtain ⟨i, e₀, hi, _, _, hset⟩ := setTagLevel_of_mem p t l hm
    rw [hset]
    exact mem_of_getElem? _ i _ (getElem?_set_at _ _ _ _ hi)
  · rw [setTagLevel_of_not_mem p t l hm]
    show (⟨t, l⟩ : tagLevel) ∈ sortSort (p.entries ++ [⟨t, l⟩])
    rw [(sortSort_perm _).mem_iff]
    exact List.mem_append_right _ (List.mem_singleton_self _)

theorem tagsOf_setTagLevel_nodup (p : tagList) (t : String) (l : LogLevel)
    (hu : (tagsOf p.entries).Nodup) : (tagsOf (p.setTagLevel t l).entries).Nodup := by
  by_cases hm : t ∈ tagsOf p.entries
  · obtain ⟨i, e₀, hi, ht, _, hset⟩ := setTagLevel_of_mem p t l hm
    rw [hset]
    show (tagsOf (p.entries.set i ⟨t, l⟩)).Nodup
    rw [← ht, tagsOf_set _ _ _ _ hi]
    exact hu
  · rw [setTagLevel_of_not_mem p t l hm]
    show (tagsOf (sortSort (p.entries ++ [⟨t, l⟩]))).Nodup
    have hperm : (tagsOf (sortSort (p.entries ++ [⟨t, l⟩]))).Perm (tagsOf p.entries ++ [t]) := by
      have := (sortSort_perm (p.entries ++ [⟨t, l⟩])).map tagLevel.tag
      simpa [tagsOf] using this
    rw [hperm.nodup_iff, List.nodup_append]
    refine ⟨hu, List.nodup_singleton t, ?_⟩
    intro a ha hb
    rw [List.mem_singleton] at hb
    exact hm (hb ▸ ha)

theorem mem_setTagLevel_iff (p : tagList) (t : String) (l : LogLevel)
    (hu : (tagsOf p.entries).Nodup) (e : tagLevel) :
    e ∈ (p.setTagLevel t l).entries ↔ e = ⟨t, l⟩ ∨ (e ∈ p.entries ∧ e.tag ≠ t) := by
  constructor
  · intro he
    by_cases ht : e.tag = t
    · exact Or.inl (List.inj_on_of_nodup_map (tagsOf_setTagLevel_nodup p t l hu) he
        (self_mem_setTagLevel p t l) ht)
    · exact Or.inr ⟨(mem_setTagLevel_of_ne p t l e ht).1 he, ht⟩
  · rintro (rfl | ⟨he, ht⟩)
    · exact self_mem_setTagLevel p t l
    · exact (mem_setTagLevel_of_ne p t l e ht).2 he

theorem nodup_of_strictlyAscendingByTag (xs : List tagLevel)
    (h : strictlyAscendingByTag xs) : (tagsOf xs).Nodup :=
  ((strictlyAscendingByTag_iff xs).1 h).imp (fun hab => ne_of_lt hab)

theorem eq_of_strictlyAscendingByTag (xs ys : List tagLevel)
    (hx : strictlyAscendingByTag xs) (hy : strictlyAscendingByTag ys)
    (h : ∀ e, e ∈ xs ↔ e ∈ ys) : xs = ys := by
  have hnx : xs.Nodup := List.Nodup.of_map _ (nodup_of_strictlyAscendingByTag xs hx)
  have hny : ys.Nodup := List.Nodup.of_map _ (nodup_of_strictlyAscendingByTag ys hy)
  have hperm : xs.Perm ys := (List.perm_ext_iff_of_nodup hnx hny).2 h
  haveI : IsAntisymm tagLevel (fun a b => a.tag < b.tag) :=
    ⟨fun a b hab hba => absurd hab (lt_asymm hba)⟩
  exact List.eq_of_perm_of_sorted hperm hx hy

theorem checkTagLevel_congr_on (p p' : tagList) (level : LogLevel) (o : List String)
    (h : ∀ e : tagLevel, e.tag ∈ o → (e ∈ p'.entries ↔ e ∈ p.entries)) :
    p'.checkTagLevel level o = p.checkTagLevel level o := by
  rw [Bool.eq_iff_iff, checkTagLevel_iff, checkTagLevel_iff]
  constructor
  · rintro ⟨e, he, ht, hl⟩
    exact ⟨e, (h e ht).1 he, ht, hl⟩
  · rintro ⟨e, he, ht, hl⟩
    exact ⟨e, (h e ht).2 he, ht, hl⟩

theorem setExisting_twice (t : String) (l₁ l₂ : LogLevel) (xs r : List tagLevel)
    (h : setExisting t l₁ xs = some r) : setExisting t l₂ r = setExisting t l₂ xs := by
  induction xs generalizing r with
  | nil => simp [setExisting] at h
  | cons e rest ih =>
    unfold setExisting at h
    by_cases he : e.tag = t
    · rw [if_pos he] at h
      rw [← Option.some.inj h]
      unfold setExisting
      rw [if_pos he, if_pos he]
    · rw [if_neg he] at h
      cases hr : setExisting t l₁ rest with
      | none => rw [hr] at h; simp at h
      | some r' =>
        rw [hr] at h
        rw [← Option.some.inj h]
        show setExisting t l₂ (e :: r') = setExisting t l₂ (e :: rest)
        unfold setExisting
        rw [if_neg he, if_neg he, ih r' hr]

theorem relevel_tag (t : String) (l : LogLevel) (e : tagLevel) : (relevel t l e).tag = e.tag := by
  unfold relevel
  by_cases h : e.tag = t
  · rw [if_pos h, h]
  · rw [if_neg h]

theorem relevel_of_ne (t : String) (l : LogLevel) (e : tagLevel) (h : e.tag ≠ t) :
    relevel t l e = e := by
  unfold relevel
  rw [if_neg h]

theorem map_relevel_of_not_mem (t : String) (l : LogLevel) (xs : List tagLevel)
    (h : t ∉ tagsOf xs) : xs.map (relevel t l) = xs := by
  induction xs with
  | nil => rfl
  | cons e rest ih =>
    unfold tagsOf at h ih
    rw [List.map_cons, List.mem_cons, not_or] at h
    rw [List.map_cons, ih h.2, relevel_of_ne t l e (fun he => h.1 he.symm)]

theorem sinkLeft_map_relevel (t : String) (l : LogLevel) (x : tagLevel) (ys : List tagLevel) :
    sinkLeft (relevel t l x) (ys.map (relevel t l)) = (sinkLeft x ys).map (relevel t l) := by
  induction ys with
  | nil => rfl
  | cons y before ih =>
    rw [List.map_cons]
    unfold sinkLeft
    rw [relevel_tag, relevel_tag]
    by_cases h : strLess x.tag y.tag = true
    · rw [if_pos h, if_pos h, List.map_cons, ih]
    · rw [if_neg h, if_neg h]
      rfl

theorem foldl_sinkLeft_map_relevel (t : String) (l : LogLevel) (xs acc : List tagLevel) :
    (xs.map (relevel t l)).foldl (fun before x => sinkLeft x before) (acc.map (relevel t l))
      = (xs.foldl (fun before x => sinkLeft x before) acc).map (relevel t l) := by
  induction xs generalizing acc with
  | nil => rfl
  | cons x rest ih =>
    rw [List.map_cons, List.foldl_cons, List.foldl_cons, sinkLeft_map_relevel, ih]

theorem sortSort_map_relevel (t : String) (l : LogLevel) (xs : List tagLevel) :
    sortSort (xs.map (relevel t l)) = (sortSort xs).map (relevel t l) := by
  unfold sortSort
  rw [List.map_reverse]
  exact congrArg List.reverse (foldl_sinkLeft_map_relevel t l xs [])

theorem setExisting_eq_map_relevel (t : String) (l : LogLevel) (ys : List tagLevel)
    (h : (tagsOf ys).count t = 1) : setExisting t l ys = some (ys.map (relevel t l)) := by
  induction ys with
  | nil => simp [tagsOf] at h
  | cons e rest ih =>
    unfold tagsOf at h ih
    rw [List.map_cons, List.count_cons] at h
    unfold setExisting
    by_cases he : e.tag = t
    · have hc : List.count t (List.map tagLevel.tag rest) = 0 := by
        simp only [he, beq_self_eq_true, if_true] at h
        omega
      rw [if_pos he, List.map_cons, map_relevel_of_not_mem t l rest (List.count_eq_zero.1 hc)]
      unfold relevel
      rw [if_pos he, he]
    · have hc : List.count t (List.map tagLevel.tag rest) = 1 := by
        have hb : (e.tag == t) = false := beq_false_of_ne he
        simpa [hb] using h
      rw [if_neg he, ih hc, List.map_cons, relevel_of_ne t l e he]
      rfl

theorem setTagLevel_of_some (p : tagList) (t : String) (l : LogLevel) (r : List tagLevel)
    (h : setExisting t l p.entries = some r) : p.setTagLevel t l = tagList.slice r := by
  unfold tagList.setTagLevel
  rw [h]

theorem setTagLevel_twice (p : tagList) (t : String) (l₁ l₂ : LogLevel) :
    (p.setTagLevel t l₁).setTagLevel t l₂ = p.setTagLevel t l₂ := by
  by_cases hm : t ∈ tagsOf p.entries
  · obtain ⟨i, e₀, _, _, _, hset⟩ := setExisting_of_mem t l₁ p.entries hm
    obtain ⟨j, e₁, _, _, _, hset₂⟩ := setExisting_of_mem t l₂ p.entries hm
    rw [setTagLevel_of_some p t l₁ _ hset, setTagLevel_of_some p t l₂ _ hset₂]
    apply setTagLevel_of_some
    show setExisting t l₂ (p.entries.set i ⟨t, l₁⟩) = _
    rw [setExisting_twice t l₁ l₂ p.entries _ hset, hset₂]
  · rw [setTagLevel_of_not_mem p t l₁ hm, setTagLevel_of_not_mem p t l₂ hm]
    have hcount : (tagsOf (sortSort (p.entries ++ [⟨t, l₁⟩]))).count t = 1 := by
      have hperm := (sortSort_perm (p.entries ++ [⟨t, l₁⟩])).map tagLevel.tag
      unfold tagsOf
      rw [hperm.count_eq, List.map_append, List.count_append,
        List.count_eq_zero.2 (show t ∉ List.map tagLevel.tag p.entries from hm)]
      simp
    apply setTagLevel_of_some
    show setExisting t l₂ (sortSort (p.entries ++ [⟨t, l₁⟩])) = _
    rw [setExisting_eq_map_relevel t l₂ _ hcount, ← sortSort_map_relevel, List.map_append,
      map_relevel_of_not_mem t l₂ p.entries hm]
    simp [relevel]

theorem setTagLevel_eq_slice (p : tagList) (t : String) (l : LogLevel) :
    p.setTagLevel t l = tagList.slice (p.setTagLevel t l).entries := by
  unfold tagList.setTagLevel
  cases setExisting t l p.entries <;> rfl

theorem setTagLevel_comm (p : tagList) (t₁ t₂ : String) (l₁ l₂ : LogLevel)
    (hp : strictlyAscendingByTag p.entries) (hne : t₁ ≠ t₂) :
    (p.setTagLevel t₁ l₁).setTagLevel t₂ l₂ = (p.setTagLevel t₂ l₂).setTagLevel t₁ l₁ := by
  have hu := nodup_of_strictlyAscendingByTag _ hp
  rw [setTagLevel_eq_slice (p.setTagLevel t₁ l₁), setTagLevel_eq_slice (p.setTagLevel t₂ l₂)]
  refine congrArg tagList.slice (eq_of_strictlyAscendingByTag _ _
    (setTagLevel_strict _ t₂ l₂ (setTagLevel_strict p t₁ l₁ hp))
    (setTagLevel_strict _ t₁ l₁ (setTagLevel_strict p t₂ l₂ hp)) ?_)
  intro e
  rw [mem_setTagLevel_iff _ t₂ l₂ (tagsOf_setTagLevel_nodup p t₁ l₁ hu),
    mem_setTagLevel_iff _ t₁ l₁ (tagsOf_setTagLevel_nodup p t₂ l₂ hu),
    mem_setTagLevel_iff p t₁ l₁ hu, mem_setTagLevel_iff p t₂ l₂ hu]
  constructor
  · rintro (h | ⟨h | ⟨h, h₁⟩, h₂⟩)
    · exact Or.inr ⟨Or.inl h, fun ht => hne (by rw [← ht, h])⟩
    · exact Or.inl h
    · exact Or.inr ⟨Or.inr ⟨h, h₂⟩, h₁⟩
  · rintro (h | ⟨h | ⟨h, h₂⟩, h₁⟩)
    · exact Or.inr ⟨Or.inl h, fun ht => hne (by rw [← ht, h])⟩
    · exact Or.inl h
    · exact Or.inr ⟨Or.inr ⟨h, h₁⟩, h₂⟩

theorem setTagLevels_cons (p : tagList) (c : String × LogLevel)
    (rest : List (String × LogLevel)) :
    setTagLevels p (c :: rest) = setTagLevels (p.setTagLevel c.1 c.2) rest := rfl

theorem setTagLevels_eq_slice (calls : List (String × LogLevel)) (xs : List tagLevel) :
    setTagLevels (tagList.slice xs) calls
      = tagList.slice (setTagLevels (tagList.slice xs) calls).entries := by
  induction calls generalizing xs with
  | nil => rfl
  | cons c rest ih =>
    rw [setTagLevels_cons, setTagLevel_eq_slice]
    exact ih _

theorem lastLevel_head_ne_none (c : String × LogLevel) (rest : List (String × LogLevel)) :
    lastLevel c.1 (c :: rest) ≠ none := by
  unfold lastLevel
  cases lastLevel c.1 rest with
  | none => simp
  | some l => simp

theorem lastLevel_cons (t : String) (c : String × LogLevel) (rest : List (String × LogLevel)) :
    lastLevel t (c :: rest) =
      match lastLevel t rest with
      | some l => some l
      | none => if c.1 = t then some c.2 else none := rfl

theorem mem_setTagLevels_iff (calls : List (String × LogLevel)) (p : tagList)
    (hu : (tagsOf p.entries).Nodup) (e : tagLevel) :
    e ∈ (setTagLevels p calls).entries ↔
      lastLevel e.tag calls = some e.level ∨ (lastLevel e.tag calls = none ∧ e ∈ p.entries) := by
  induction calls generalizing p with
  | nil => simp [setTagLevels, lastLevel]
  | cons c rest ih =>
    rw [setTagLevels_cons, ih _ (tagsOf_setTagLevel_nodup p c.1 c.2 hu),
      mem_setTagLevel_iff p c.1 c.2 hu, lastLevel_cons]
    cases lastLevel e.tag rest with
    | some l' => simp
    | none =>
      by_cases hc : c.1 = e.tag
      · simp only [hc, if_true, true_and, reduceCtorEq, false_and, or_false, false_or, ne_eq,
          not_true_eq_false, and_false, Option.some.injEq]
        constructor
        · intro h
          rw [h]
        · intro h
          cases e
          simp only at hc h ⊢
          rw [h]
      · simp only [hc, if_false, true_and, reduceCtorEq, false_or]
        constructor
        · rintro (h | ⟨h, _⟩)
          · exact absurd (by rw [h]) hc
          · exact h
        · intro h
          exact Or.inr ⟨h, fun ht => hc ht.symm⟩

theorem setTagLevels_order (p : tagList) (hp : strictlyAscendingByTag p.entries)
    (cs cs' : List (String × LogLevel)) (h : ∀ t, lastLevel t cs = lastLevel t cs') :
    setTagLevels p cs = setTagLevels p cs' := by
  have hu := nodup_of_strictlyAscendingByTag _ hp
  have hent : (setTagLevels p cs).entries = (setTagLevels p cs').entries := by
    refine eq_of_strictlyAscendingByTag _ _ (setTagLevels_strict cs p hp)
      (setTagLevels_strict cs' p hp) ?_
    intro e
    rw [mem_setTagLevels_iff cs p hu, mem_setTagLevels_iff cs' p hu, h]
  cases cs with
  | nil =>
    cases cs' with
    | nil => rfl
    | cons c' rest' => exact absurd (h c'.1).symm (lastLevel_head_ne_none c' rest')
  | cons c rest =>
    cases cs' with
    | nil => exact absurd (h c.1) (lastLevel_head_ne_none c rest)
    | cons c' rest' =>
      rw [setTagLevels_cons, setTagLevel_eq_slice, setTagLevels_eq_slice] at hent ⊢
      rw [setTagLevels_cons, setTagLevel_eq_slice p c'.1, setTagLevels_eq_slice rest'] at hent ⊢
      exact congrArg tagList.slice hent

theorem equalsIgnoringCaseAux_iff (a b : List Char) :
    equalsIgnoringCaseAux a b = true ↔ a.map Char.toLower = b.map Char.toLower := by
  induction a generalizing b with
  | nil =>
    cases b with
    | nil => simp [equalsIgnoringCaseAux]
    | cons y ys => simp [equalsIgnoringCaseAux]
  | cons x xs ih =>
    cases b with
    | nil => simp [equalsIgnoringCaseAux]
    | cons y ys =>
      unfold equalsIgnoringCaseAux
      rw [Bool.and_eq_true, beq_iff_eq, ih ys, List.map_cons, List.map_cons, List.cons.injEq]

theorem equalsIgnoringCase_iff (a b : String) :
    equalsIgnoringCase a b = true ↔ lowerCase a = lowerCase b :=
  equalsIgnoringCaseAux_iff a.toList b.toList

theorem FormatFromString_full (s : String) (h : lowerCase s = lowerCase "FULL") :
    FormatFromString s = LogFormat.FULL := by
  unfold FormatFromString
  rw [h, if_pos (by decide)]

theorem FormatFromString_simple (s : String) (h : lowerCase s = lowerCase "SIMPLE") :
    FormatFromString s = LogFormat.SIMPLE := by
  unfold FormatFromString
  rw [h, if_neg (by decide), if_pos (by decide)]

theorem FormatFromString_minimal (s : String) (h : lowerCase s = lowerCase "MINIMAL") :
    FormatFromString s = LogFormat.MINIMAL := by
  unfold FormatFromString
  rw [h, if_neg (by decide), if_neg (by decide), if_pos (by decide)]

theorem FormatFromString_minimaltagged (s : String)
    (h : lowerCase s = lowerCase "MINIMALTAGGED") :
    FormatFromString s = LogFormat.MINIMALTAGGED := by
  unfold FormatFromString
  rw [h, if_neg (by decide), if_neg (by decide), if_neg (by decide), if_pos (by decide)]

theorem FormatFromString_other (s : String) (h₁ : lowerCase s ≠ lowerCase "FULL")
    (h₂ : lowerCase s ≠ lowerCase "MINIMAL") (h₃ : lowerCase s ≠ lowerCase "MINIMALTAGGED") :
    FormatFromString s = LogFormat.SIMPLE := by
  have e₁ : lowerCase "FULL" = lowerCase "full" := by decide
  have e₂ : lowerCase "MINIMAL" = lowerCase "minimal" := by decide
  have e₃ : lowerCase "MINIMALTAGGED" = lowerCase "minimaltagged" := by decide
  unfold FormatFromString
  rw [if_neg (e₁ ▸ h₁)]
  by_cases hs : lowerCase s = lowerCase "simple"
  · rw [if_pos hs]
  · rw [if_neg hs, if_neg (e₂ ▸ h₂), if_neg (e₃ ▸ h₃)]

/-! ## Theorems -/

/-- C1: for every tag list p, level L and tag sequence o, `p.checkTagLevel(L, o)` returns true
if and only if there is an entry (t, l) of p such that t is an element of o and l ≤ L. -/
theorem checkTagLevel_true_iff (p : tagList) (L : LogLevel) (o : List String) :
    p.checkTagLevel L o = true ↔
      ∃ t l, (⟨t, l⟩ : tagLevel) ∈ p.entries ∧ t ∈ o ∧ l ≤ L := by
  rw [checkTagLevel_iff]
  constructor
  · rintro ⟨e, he, ht, hl⟩
    exact ⟨e.tag, e.level, he, ht, hl⟩
  · rintro ⟨t, l, he, ht, hl⟩
    exact ⟨⟨t, l⟩, he, ht, hl⟩

/-- C2: every tag list obtained from the nil list by a finite sequence of `setTagLevel` calls
is strictly ascending by tag (ascending lexicographic order, no tag twice), and `setTagLevel`
maps a strictly ascending list to a strictly ascending list for every tag and level. -/
theorem setTagLevel_keeps_strictly_ascending :
    (∀ calls : List (String × LogLevel),
      strictlyAscendingByTag (setTagLevels tagList.null calls).entries) ∧
    (∀ (p : tagList) (t : String) (l : LogLevel),
      strictlyAscendingByTag p.entries → strictlyAscendingByTag (p.setTagLevel t l).entries) :=
  ⟨fun calls => setTagLevels_strict calls tagList.null List.Pairwise.nil,
    fun p t l h => setTagLevel_strict p t l h⟩

/-- Witness for C2: two calls from the nil list, then one more call on the list reached. -/
theorem setTagLevel_keeps_strictly_ascending_witness :
    strictlyAscendingByTag (tagList.slice [⟨"a", 2⟩, ⟨"b", 1⟩]).entries ∧
    strictlyAscendingByTag (setTagLevels tagList.null [("b", 1), ("a", 2)]).entries ∧
    strictlyAscendingByTag ((tagList.slice [⟨"a", 2⟩, ⟨"b", 1⟩]).setTagLevel "ab" 0).entries :=
  ⟨by decide, setTagLevel_keeps_strictly_ascending.1 [("b", 1), ("a", 2)],
    setTagLevel_keeps_strictly_ascending.2 (tagList.slice [⟨"a", 2⟩, ⟨"b", 1⟩]) "ab" 0
      (by decide)⟩

/-- C3: for every tag list p (in whatever order), level l and tag t that does not occur in p,
`p.setTagLevel(t, l)` returns a list of length len(p)+1 that is a permutation of p with the
entry (t, l) added and that is in ascending lexicographic order by tag. -/
theorem setTagLevel_new_tag (p : tagList) (t : String) (l : LogLevel)
    (h : t ∉ tagsOf p.entries) :
    (p.setTagLevel t l).Len = p.Len + 1 ∧
    (p.setTagLevel t l).entries.Perm (p.entries ++ [⟨t, l⟩]) ∧
    ascendingByTag (p.setTagLevel t l).entries := by
  rw [setTagLevel_of_not_mem p t l h]
  refine ⟨?_, sortSort_perm _, sortSort_ascending _⟩
  unfold tagList.Len
  rw [show (tagList.slice (sortSort (p.entries ++ [⟨t, l⟩]))).entries
    = sortSort (p.entries ++ [⟨t, l⟩]) from rfl, (sortSort_perm _).length_eq]
  simp

/-- Witness for C3: a new tag set on an unordered list with a repeated tag. -/
theorem setTagLevel_new_tag_witness :
    "b" ∉ tagsOf (tagList.slice [⟨"c", 1⟩, ⟨"a", 2⟩, ⟨"c", 0⟩]).entries ∧
    ((tagList.slice [⟨"c", 1⟩, ⟨"a", 2⟩, ⟨"c", 0⟩]).setTagLevel "b" 3).Len = 4 ∧
    ((tagList.slice [⟨"c", 1⟩, ⟨"a", 2⟩, ⟨"c", 0⟩]).setTagLevel "b" 3).entries.Perm
      [⟨"c", 1⟩, ⟨"a", 2⟩, ⟨"c", 0⟩, ⟨"b", 3⟩] ∧
    ascendingByTag ((tagList.slice [⟨"c", 1⟩, ⟨"a", 2⟩, ⟨"c", 0⟩]).setTagLevel "b" 3).entries :=
  ⟨by decide,
    setTagLevel_new_tag (tagList.slice [⟨"c", 1⟩, ⟨"a", 2⟩, ⟨"c", 0⟩]) "b" 3 (by decide)⟩

/-- C4: for every tag list p that contains tag t and every level l, `p.setTagLevel(t, l)`
returns a list of the same length with the same tag at every position; the entry for t (the
first one with that tag) has level l, every entry with a different tag keeps its level, and
every other position holds what it held: no entry is added, removed or moved. -/
theorem setTagLevel_existing_tag (p : tagList) (t : String) (l : LogLevel)
    (h : t ∈ tagsOf p.entries) :
    (p.setTagLevel t l).Len = p.Len ∧
    tagsOf (p.setTagLevel t l).entries = tagsOf p.entries ∧
    (∀ (j : Nat) (e : tagLevel), p.entries[j]? = some e → e.tag ≠ t →
      (p.setTagLevel t l).entries[j]? = some e) ∧
    ∃ (i : Nat) (e : tagLevel), p.entries[i]? = some e ∧ e.tag = t ∧
      (∀ (j : Nat) (e' : tagLevel), j < i → p.entries[j]? = some e' → e'.tag ≠ t) ∧
      (p.setTagLevel t l).entries[i]? = some ⟨t, l⟩ ∧
      ∀ j : Nat, j ≠ i → (p.setTagLevel t l).entries[j]? = p.entries[j]? := by
  obtain ⟨i, e, hi, ht, hfirst, hset⟩ := setTagLevel_of_mem p t l h
  rw [hset]
  have hother : ∀ j, j ≠ i →
      (tagList.slice (p.entries.set i ⟨t, l⟩)).entries[j]? = p.entries[j]? := by
    intro j hj
    exact List.getElem?_set_ne (Ne.symm hj)
  refine ⟨?_, ?_, ?_, i, e, hi, ht, hfirst, getElem?_set_at _ _ _ _ hi, hother⟩
  · unfold tagList.Len
    exact List.length_set _ _ _
  · show tagsOf (p.entries.set i ⟨t, l⟩) = tagsOf p.entries
    rw [← ht]
    exact tagsOf_set _ _ _ _ hi
  · intro j e' hj hne
    have hji : j ≠ i := by
      rintro rfl
      rw [hi] at hj
      exact hne ((Option.some.inj hj) ▸ ht)
    rw [hother j hji, hj]

/-- Witness for C4: the tag is present; its level changes where it stands. -/
theorem setTagLevel_existing_tag_witness :
    "a" ∈ tagsOf (tagList.slice [⟨"c", 1⟩, ⟨"a", 2⟩, ⟨"b", 0⟩]).entries ∧
    (tagList.slice [⟨"c", 1⟩, ⟨"a", 2⟩, ⟨"b", 0⟩]).setTagLevel "a" 3
      = tagList.slice [⟨"c", 1⟩, ⟨"a", 3⟩, ⟨"b", 0⟩] ∧
    ((tagList.slice [⟨"c", 1⟩, ⟨"a", 2⟩, ⟨"b", 0⟩]).setTagLevel "a" 3).Len
      = (tagList.slice [⟨"c", 1⟩, ⟨"a", 2⟩, ⟨"b", 0⟩]).Len :=
  ⟨by decide, by decide,
    (setTagLevel_existing_tag (tagList.slice [⟨"c", 1⟩, ⟨"a", 2⟩, ⟨"b", 0⟩]) "a" 3
      (by decide)).1⟩

/-- C5: for every tag list p in which each tag appears at most once and that already contains
the pair (t, l), `p.setTagLevel(t, l)` returns a list equal to p (same entries, same order). -/
theorem setTagLevel_same_pair (p : tagList) (t : String) (l : LogLevel)
    (hu : (tagsOf p.entries).Nodup) (hm : (⟨t, l⟩ : tagLevel) ∈ p.entries) :
    p.setTagLevel t l = p := by
  have ht : t ∈ tagsOf p.entries := List.mem_map.2 ⟨⟨t, l⟩, hm, rfl⟩
  obtain ⟨i, e, hi, hte, _, hset⟩ := setTagLevel_of_mem p t l ht
  have he : e = ⟨t, l⟩ :=
    List.inj_on_of_nodup_map hu (mem_of_getElem? _ _ _ hi) hm hte
  rw [hset, set_eq_self _ _ _ (he ▸ hi)]
  cases p with
  | null => simp [tagList.entries] at hm
  | slice xs => rfl

/-- Witness for C5: the pair is present in a list without repeated tags. -/
theorem setTagLevel_same_pair_witness :
    (tagsOf (tagList.slice [⟨"c", 1⟩, ⟨"a", 2⟩]).entries).Nodup ∧
    (⟨"a", 2⟩ : tagLevel) ∈ (tagList.slice [⟨"c", 1⟩, ⟨"a", 2⟩]).entries ∧
    (tagList.slice [⟨"c", 1⟩, ⟨"a", 2⟩]).setTagLevel "a" 2
      = tagList.slice [⟨"c", 1⟩, ⟨"a", 2⟩] :=
  ⟨by decide, by decide,
    setTagLevel_same_pair (tagList.slice [⟨"c", 1⟩, ⟨"a", 2⟩]) "a" 2 (by decide) (by decide)⟩

/-- C6: checkTagLevel is order-independent: for every tag list p, level L and tag sequence o,
and for every permutation p' of p and every permutation o' of o,
`p'.checkTagLevel(L, o') = p.checkTagLevel(L, o)`. -/
theorem checkTagLevel_perm (p p' : tagList) (L : LogLevel) (o o' : List String)
    (hp : p'.entries.Perm p.entries) (ho : o'.Perm o) :
    p'.checkTagLevel L o' = p.checkTagLevel L o :=
  checkTagLevel_congr p p' L o o' (fun _ => hp.mem_iff) (fun _ => ho.mem_iff)

/-- Witness for C6: the entries and the event's tags both in another order. -/
theorem checkTagLevel_perm_witness :
    (tagList.slice [⟨"b", 3⟩, ⟨"a", 1⟩]).entries.Perm
      (tagList.slice [⟨"a", 1⟩, ⟨"b", 3⟩]).entries ∧
    ["a", "x"].Perm ["x", "a"] ∧
    (tagList.slice [⟨"b", 3⟩, ⟨"a", 1⟩]).checkTagLevel 2 ["a", "x"]
      = (tagList.slice [⟨"a", 1⟩, ⟨"b", 3⟩]).checkTagLevel 2 ["x", "a"] :=
  ⟨List.Perm.swap _ _ _, List.Perm.swap _ _ _,
    checkTagLevel_perm (tagList.slice [⟨"a", 1⟩, ⟨"b", 3⟩]) (tagList.slice [⟨"b", 3⟩, ⟨"a", 1⟩])
      2 ["x", "a"] ["a", "x"] (List.Perm.swap _ _ _) (List.Perm.swap _ _ _)⟩

/-- C7: checkTagLevel treats the event's tags as a set: for every tag list p, level L and tag
sequences o and o' with the same set of elements, `p.checkTagLevel(L, o) = p.checkTagLevel(L, o')`;
in particular removing the duplicates of o, or repeating o, changes nothing. -/
theorem checkTagLevel_same_tag_set (p : tagList) (L : LogLevel) (o o' : List String)
    (h : ∀ s, s ∈ o ↔ s ∈ o') :
    p.checkTagLevel L o = p.checkTagLevel L o' ∧
    p.checkTagLevel L o.dedup = p.checkTagLevel L o ∧
    p.checkTagLevel L (o ++ o) = p.checkTagLevel L o :=
  ⟨checkTagLevel_congr p p L o' o (fun _ => Iff.rfl) h,
    checkTagLevel_congr p p L o o.dedup (fun _ => Iff.rfl) (fun _ => List.mem_dedup),
    checkTagLevel_congr p p L o (o ++ o) (fun _ => Iff.rfl)
      (fun _ => by rw [List.mem_append, or_self])⟩

/-- Witness for C7: a tag sequence with a repeated tag against the same tags once each. -/
theorem checkTagLevel_same_tag_set_witness :
    (∀ s, s ∈ ["a", "x", "a"] ↔ s ∈ ["x", "a"]) ∧
    (tagList.slice [⟨"a", 1⟩, ⟨"b", 3⟩]).checkTagLevel 2 ["a", "x", "a"]
      = (tagList.slice [⟨"a", 1⟩, ⟨"b", 3⟩]).checkTagLevel 2 ["x", "a"] :=
  ⟨by intro s; simp only [List.mem_cons, List.mem_singleton, List.not_mem_nil]; tauto,
    (checkTagLevel_same_tag_set (tagList.slice [⟨"a", 1⟩, ⟨"b", 3⟩]) 2 ["a", "x", "a"] ["x", "a"]
      (by intro s; simp only [List.mem_cons, List.mem_singleton, List.not_mem_nil]; tauto)).1⟩

/-- C8: an empty or absent tag list admits nothing, and an untagged event is never admitted by
tags: for every level L and tag sequence o, `checkTagLevel(L, o)` is false when the list is nil
or has length 0, and for every tag list p and level L, `p.checkTagLevel(L, [])` is false. -/
theorem checkTagLevel_empty (L : LogLevel) (o : List String) :
    tagList.null.checkTagLevel L o = false ∧
    (∀ p : tagList, p.Len = 0 → p.checkTagLevel L o = false) ∧
    (∀ p : tagList, p.checkTagLevel L [] = false) := by
  refine ⟨rfl, ?_, ?_⟩
  · intro p hp
    exact checkTagLevel_of_entries_nil p L o (List.length_eq_zero.1 hp)
  · intro p
    rw [← Bool.not_eq_true, checkTagLevel_iff]
    simp

/-- Witness for C8: the empty non-nil list at level ERROR, and an untagged event. -/
theorem checkTagLevel_empty_witness :
    (tagList.slice []).Len = 0 ∧
    (tagList.slice []).checkTagLevel ERROR ["a"] = false ∧
    (tagList.slice [⟨"a", DEBUG⟩]).checkTagLevel ERROR [] = false :=
  ⟨rfl, (checkTagLevel_empty ERROR ["a"]).2.1 (tagList.slice []) rfl,
    (checkTagLevel_empty ERROR ["a"]).2.2 (tagList.slice [⟨"a", DEBUG⟩])⟩

/-- C9: tag admission is monotone in the event level: for every tag list p, tag sequence o and
levels L ≤ L', if `p.checkTagLevel(L, o)` is true then `p.checkTagLevel(L', o)` is true. -/
theorem checkTagLevel_mono (p : tagList) (o : List String) (L L' : LogLevel)
    (hle : L ≤ L') (h : p.checkTagLevel L o = true) :
    p.checkTagLevel L' o = true := by
  rw [checkTagLevel_iff] at h ⊢
  obtain ⟨e, he, ht, hl⟩ := h
  exact ⟨e, he, ht, le_trans hl hle⟩

/-- Witness for C9: an event admitted at INFO is admitted at ERROR. -/
theorem checkTagLevel_mono_witness :
    INFO ≤ ERROR ∧
    (tagList.slice [⟨"a", INFO⟩, ⟨"b", ERROR⟩]).checkTagLevel INFO ["a"] = true ∧
    (tagList.slice [⟨"a", INFO⟩, ⟨"b", ERROR⟩]).checkTagLevel ERROR ["a"] = true :=
  ⟨by decide, by decide,
    checkTagLevel_mono (tagList.slice [⟨"a", INFO⟩, ⟨"b", ERROR⟩]) ["a"] INFO ERROR
      (by decide) (by decide)⟩

/-- C10: for every appender, every threshold T given to SetLevel and every event level E,
`CheckLevel(E)` returns true if and only if T ≤ E in the order DEBUG < INFO < WARN < ERROR;
with T = INFO it is true for ERROR and INFO and false for DEBUG. -/
theorem CheckLevel_after_SetLevel {σ : Type} (a : Appender σ) (T E : LogLevel) :
    ((a.SetLevel T).CheckLevel E = true ↔ T ≤ E) ∧
    (DEBUG < INFO ∧ INFO < WARN ∧ WARN < ERROR) ∧
    (a.SetLevel INFO).CheckLevel ERROR = true ∧
    (a.SetLevel INFO).CheckLevel INFO = true ∧
    (a.SetLevel INFO).CheckLevel DEBUG = false := by
  refine ⟨CheckLevel_SetLevel_iff a T E, by decide, ?_, ?_, ?_⟩
  · exact (CheckLevel_SetLevel_iff a INFO ERROR).2 (by decide)
  · exact (CheckLevel_SetLevel_iff a INFO INFO).2 (by decide)
  · rw [← Bool.not_eq_true, CheckLevel_SetLevel_iff]
    decide

/-- C15: a tag level that was set is the one that decides admission: for every tag list p in
which each tag appears at most once, every tag t and levels l and L,
`p.setTagLevel(t, l).checkTagLevel(L, [t])` is true if and only if l ≤ L, whether t was
already in p (with any previous level) or not. -/
theorem setTagLevel_decides_admission (p : tagList) (t : String) (l L : LogLevel)
    (hu : (tagsOf p.entries).Nodup) :
    (p.setTagLevel t l).checkTagLevel L [t] = true ↔ l ≤ L := by
  rw [checkTagLevel_iff]
  constructor
  · rintro ⟨e, he, ht, hl⟩
    rcases (mem_setTagLevel_iff p t l hu e).1 he with h | ⟨_, h⟩
    · rw [h] at hl
      exact hl
    · exact absurd (List.mem_singleton.1 ht) h
  · intro hl
    exact ⟨⟨t, l⟩, self_mem_setTagLevel p t l, List.mem_singleton_self t, hl⟩

/-- Witness for C15: tag "a" stood at ERROR and rejected a WARN event; set to INFO it admits
it, and a tag that was absent behaves the same way. -/
theorem setTagLevel_decides_admission_witness :
    (tagsOf (tagList.slice [⟨"b", DEBUG⟩, ⟨"a", ERROR⟩]).entries).Nodup ∧
    (tagList.slice [⟨"b", DEBUG⟩, ⟨"a", ERROR⟩]).checkTagLevel WARN ["a"] = false ∧
    (((tagList.slice [⟨"b", DEBUG⟩, ⟨"a", ERROR⟩]).setTagLevel "a" INFO).checkTagLevel
      WARN ["a"] = true ↔ INFO ≤ WARN) :=
  ⟨by decide, by decide,
    setTagLevel_decides_admission (tagList.slice [⟨"b", DEBUG⟩, ⟨"a", ERROR⟩]) "a" INFO WARN
      (by decide)⟩

/-- C16: setting one tag's level does not change admission by other tags: for every tag list
p, tag t, levels l and L, and tag sequence o that does not contain t,
`p.setTagLevel(t, l).checkTagLevel(L, o) = p.checkTagLevel(L, o)`. -/
theorem setTagLevel_frame (p : tagList) (t : String) (l L : LogLevel) (o : List String)
    (ho : t ∉ o) :
    (p.setTagLevel t l).checkTagLevel L o = p.checkTagLevel L o :=
  checkTagLevel_congr_on p (p.setTagLevel t l) L o
    (fun e he => mem_setTagLevel_of_ne p t l e (fun h => ho (h ▸ he)))

/-- Witness for C16: setting "a" (present) leaves admission by "b" and "x" as it was. -/
theorem setTagLevel_frame_witness :
    "a" ∉ ["b", "x"] ∧
    ((tagList.slice [⟨"b", WARN⟩, ⟨"a", ERROR⟩]).setTagLevel "a" DEBUG).checkTagLevel
        INFO ["b", "x"]
      = (tagList.slice [⟨"b", WARN⟩, ⟨"a", ERROR⟩]).checkTagLevel INFO ["b", "x"] :=
  ⟨by decide,
    setTagLevel_frame (tagList.slice [⟨"b", WARN⟩, ⟨"a", ERROR⟩]) "a" DEBUG INFO ["b", "x"]
      (by decide)⟩

/-- C17: the last write to a tag wins: for every tag list p, tag t and levels l1 and l2,
`p.setTagLevel(t, l1).setTagLevel(t, l2)` equals `p.setTagLevel(t, l2)` as a list (same
entries in the same order); in particular applying `setTagLevel(t, l)` twice equals applying
it once. -/
theorem setTagLevel_last_write_wins (p : tagList) (t : String) (l₁ l₂ : LogLevel) :
    (p.setTagLevel t l₁).setTagLevel t l₂ = p.setTagLevel t l₂ ∧
    (p.setTagLevel t l₁).setTagLevel t l₁ = p.setTagLevel t l₁ :=
  ⟨setTagLevel_twice p t l₁ l₂, setTagLevel_twice p t l₁ l₁⟩

/-- C18: settings of distinct tags commute: for every tag list p that is strictly ascending by
tag, distinct tags t1 ≠ t2 and levels l1, l2, `p.setTagLevel(t1, l1).setTagLevel(t2, l2)`
equals `p.setTagLevel(t2, l2).setTagLevel(t1, l1)` as a list; and two sequences of calls with
the same final tag-to-level mapping, applied to p or to the nil list, reach the same list. -/
theorem setTagLevel_distinct_tags_commute (p : tagList) (t₁ t₂ : String) (l₁ l₂ : LogLevel)
    (hp : strictlyAscendingByTag p.entries) (hne : t₁ ≠ t₂) :
    (p.setTagLevel t₁ l₁).setTagLevel t₂ l₂ = (p.setTagLevel t₂ l₂).setTagLevel t₁ l₁ ∧
    (∀ cs cs' : List (String × LogLevel), (∀ t, lastLevel t cs = lastLevel t cs') →
      setTagLevels p cs = setTagLevels p cs' ∧
      setTagLevels tagList.null cs = setTagLevels tagList.null cs') :=
  ⟨setTagLevel_comm p t₁ t₂ l₁ l₂ hp hne,
    fun cs cs' h => ⟨setTagLevels_order p hp cs cs' h,
      setTagLevels_order tagList.null List.Pairwise.nil cs cs' h⟩⟩

/-- Witness for C18: "d" then "b", or "b" then "d", set on the list with tags "a" and "c". -/
theorem setTagLevel_distinct_tags_commute_witness :
    strictlyAscendingByTag (tagList.slice [⟨"a", INFO⟩, ⟨"c", WARN⟩]).entries ∧
    "d" ≠ "b" ∧
    ((tagList.slice [⟨"a", INFO⟩, ⟨"c", WARN⟩]).setTagLevel "d" DEBUG).setTagLevel "b" ERROR
      = tagList.slice [⟨"a", INFO⟩, ⟨"b", ERROR⟩, ⟨"c", WARN⟩, ⟨"d", DEBUG⟩] ∧
    ((tagList.slice [⟨"a", INFO⟩, ⟨"c", WARN⟩]).setTagLevel "d" DEBUG).setTagLevel "b" ERROR
      = ((tagList.slice [⟨"a", INFO⟩, ⟨"c", WARN⟩]).setTagLevel "b" ERROR).setTagLevel
          "d" DEBUG :=
  ⟨by decide, by decide, by decide,
    (setTagLevel_distinct_tags_commute (tagList.slice [⟨"a", INFO⟩, ⟨"c", WARN⟩]) "d" "b"
      DEBUG ERROR (by decide) (by decide)).1⟩

/-- C11: for every string s, `FormatFromString(s)` returns FULL, SIMPLE, MINIMAL or
MINIMALTAGGED when s equals that variant's name ignoring letter case, and returns SIMPLE for
every other string. -/
theorem FormatFromString_case_insensitive (s : String) :
    (equalsIgnoringCase s "FULL" = true → FormatFromString s = LogFormat.FULL) ∧
    (equalsIgnoringCase s "SIMPLE" = true → FormatFromString s = LogFormat.SIMPLE) ∧
    (equalsIgnoringCase s "MINIMAL" = true → FormatFromString s = LogFormat.MINIMAL) ∧
    (equalsIgnoringCase s "MINIMALTAGGED" = true →
      FormatFromString s = LogFormat.MINIMALTAGGED) ∧
    (equalsIgnoringCase s "FULL" = false → equalsIgnoringCase s "MINIMAL" = false →
      equalsIgnoringCase s "MINIMALTAGGED" = false →
      FormatFromString s = LogFormat.SIMPLE) := by
  refine ⟨?_, ?_, ?_, ?_, ?_⟩
  · intro h
    exact FormatFromString_full s ((equalsIgnoringCase_iff _ _).1 h)
  · intro h
    exact FormatFromString_simple s ((equalsIgnoringCase_iff _ _).1 h)
  · intro h
    exact FormatFromString_minimal s ((equalsIgnoringCase_iff _ _).1 h)
  · intro h
    exact FormatFromString_minimaltagged s ((equalsIgnoringCase_iff _ _).1 h)
  · intro h₁ h₂ h₃
    rw [← Bool.not_eq_true, equalsIgnoringCase_iff] at h₁ h₂ h₃
    exact FormatFromString_other s h₁ h₂ h₃

/-- Witness for C11: the five calls of the test. -/
theorem FormatFromString_case_insensitive_witness :
    FormatFromString "FuLl" = LogFormat.FULL ∧
    FormatFromString "SimplE" = LogFormat.SIMPLE ∧
    FormatFromString "MinimalTagged" = LogFormat.MINIMALTAGGED ∧
    FormatFromString "Minimal" = LogFormat.MINIMAL ∧
    FormatFromString "foo" = LogFormat.SIMPLE :=
  ⟨(FormatFromString_case_insensitive "FuLl").1 (by decide),
    (FormatFromString_case_insensitive "SimplE").2.1 (by decide),
    (FormatFromString_case_insensitive "MinimalTagged").2.2.2.1 (by decide),
    (FormatFromString_case_insensitive "Minimal").2.2.1 (by decide),
    (FormatFromString_case_insensitive "foo").2.2.2.2 (by decide) (by decide) (by decide)⟩

/-- C12: for every LogFormat value f, `GetFormatter(f)` returns the FULL, SIMPLE, MINIMALTAGGED
or MINIMAL formatter when f is that variant, and returns the SIMPLE formatter for every other
value of f, for instance `LogFormat("foo")`; the formatters are those the package variables
hold at the call. -/
theorem GetFormatter_lookup {τ : Type} (v : FormatterTable τ) (f : LogFormat) :
    GetFormatter v LogFormat.FULL = v.fullFormat ∧
    GetFormatter v LogFormat.SIMPLE = v.simpleFormat ∧
    GetFormatter v LogFormat.MINIMALTAGGED = v.minimalWithTagsFormat ∧
    GetFormatter v LogFormat.MINIMAL = v.minimalFormat ∧
    (f ≠ LogFormat.FULL → f ≠ LogFormat.SIMPLE → f ≠ LogFormat.MINIMALTAGGED →
      f ≠ LogFormat.MINIMAL → GetFormatter v f = v.simpleFormat) ∧
    GetFormatter v (LogFormat.unknown "foo") = v.simpleFormat := by
  refine ⟨rfl, rfl, rfl, rfl, ?_, rfl⟩
  intro h₁ h₂ h₃ h₄
  cases f with
  | FULL => exact absurd rfl h₁
  | SIMPLE => rfl
  | MINIMAL => exact absurd rfl h₄
  | MINIMALTAGGED => exact absurd rfl h₃
  | unknown name => rfl

/-- Witness for C12: the test's table of constant formatters, looked up for the four variants
and for `LogFormat("foo")`, each result called as in the test (instants taken as numbers). -/
theorem GetFormatter_lookup_witness :
    GetFormatter (⟨fun _ _ _ _ _ => "FULL FORMAT", fun _ _ _ _ _ => "SIMPLE FORMAT",
        fun _ _ _ _ _ => "MINIMAL WITH TAGS FORMAT", fun _ _ _ _ _ => "MINIMAL FORMAT"⟩ :
        FormatterTable Nat) LogFormat.FULL WARN [] "" 0 1 = "FULL FORMAT" ∧
    GetFormatter (⟨fun _ _ _ _ _ => "FULL FORMAT", fun _ _ _ _ _ => "SIMPLE FORMAT",
        fun _ _ _ _ _ => "MINIMAL WITH TAGS FORMAT", fun _ _ _ _ _ => "MINIMAL FORMAT"⟩ :
        FormatterTable Nat) (LogFormat.unknown "foo") WARN [] "" 0 1 = "SIMPLE FORMAT" :=
  ⟨congrFun (congrFun (congrFun (congrFun (congrFun (GetFormatter_lookup _
      (LogFormat.unknown "foo")).1 WARN) []) "") 0) 1,
    congrFun (congrFun (congrFun (congrFun (congrFun ((GetFormatter_lookup _
      (LogFormat.unknown "foo")).2.2.2.2.1 (by decide) (by decide) (by decide) (by decide))
      WARN) []) "") 0) 1⟩

/-- C13: for every level, tag sequence, message and pair of timestamps,
`minimalWithTagsFormat` returns "[LEVEL] [tags joined by a single space] message" when the
tag sequence is non-empty and "[LEVEL] message" when it is empty or nil; the result does not
depend on either timestamp. -/
theorem minimalWithTagsFormat_output {τ : Type} (r : Rendering τ) (level : LogLevel)
    (tags : List String) (message : String) (t original : τ) :
    (tags ≠ [] → minimalWithTagsFormat r level tags message t original
      = "[" ++ r.levelName level ++ "] [" ++ " ".intercalate tags ++ "] " ++ message) ∧
    (tags = [] → minimalWithTagsFormat r level tags message t original
      = "[" ++ r.levelName level ++ "] " ++ message) ∧
    (∀ t' original' : τ, minimalWithTagsFormat r level tags message t' original'
      = minimalWithTagsFormat r level tags message t original) := by
  refine ⟨?_, ?_, fun _ _ => rfl⟩
  · intro h
    cases tags with
    | nil => exact absurd rfl h
    | cons a as =>
      apply String.ext
      simp [minimalWithTagsFormat, tagsBracket, bracket, String.intercalate,
        String.intercalate.go, String.data_append]
  · intro h
    subst h
    apply String.ext
    simp [minimalWithTagsFormat, tagsBracket, bracket, String.intercalate,
      String.intercalate.go, String.data_append]

/-- Witness for C13: the calls of the test, with tags and without. -/
theorem minimalWithTagsFormat_output_witness :
    minimalWithTagsFormat testRendering INFO ["one", "two"] "hello" 1000 87400
      = "[INFO] [one two] hello" ∧
    minimalWithTagsFormat testRendering INFO [] "hello" 1000 87400 = "[INFO] hello" ∧
    minimalWithTagsFormat testRendering INFO ["one", "two"] "hello" 1000 1000
      = "[INFO] [one two] hello" :=
  ⟨((minimalWithTagsFormat_output testRendering INFO ["one", "two"] "hello" 1000 87400).1
      (by decide)).trans (by decide),
    ((minimalWithTagsFormat_output testRendering INFO [] "hello" 1000 87400).2.1
      rfl).trans (by decide),
    ((minimalWithTagsFormat_output testRendering INFO ["one", "two"] "hello" 1000 1000).1
      (by decide)).trans (by decide)⟩

/-- C14: for every level, tag sequence, message and timestamps, the output of `fullFormat`
has the tags bracket if and only if the tag sequence is non-empty, and the
"[replayed from time]" bracket if and only if the original timestamp differs from the
timestamp; the remaining parts are "[time] [LEVEL]" before and "message" after, each
separated by one space. -/
theorem fullFormat_output {τ : Type} [DecidableEq τ] (r : Rendering τ) (level : LogLevel)
    (tags : List String) (message : String) (t original : τ) :
    (tags ≠ [] → t ≠ original → fullFormat r level tags message t original
      = "[" ++ r.stamp t ++ "] [" ++ r.levelName level ++ "] [" ++ " ".intercalate tags
        ++ "] [replayed from " ++ r.stamp original ++ "] " ++ message) ∧
    (tags = [] → t ≠ original → fullFormat r level tags message t original
      = "[" ++ r.stamp t ++ "] [" ++ r.levelName level ++ "] [replayed from "
        ++ r.stamp original ++ "] " ++ message) ∧
    (tags ≠ [] → t = original → fullFormat r level tags message t original
      = "[" ++ r.stamp t ++ "] [" ++ r.levelName level ++ "] [" ++ " ".intercalate tags
        ++ "] " ++ message) ∧
    (tags = [] → t = original → fullFormat r level tags message t original
      = "[" ++ r.stamp t ++ "] [" ++ r.levelName level ++ "] " ++ message) := by
  refine ⟨?_, ?_, ?_, ?_⟩
  · intro h ht
    cases tags with
    | nil => exact absurd rfl h
    | cons a as =>
      apply String.ext
      simp [fullFormat, tagsBracket, bracket, String.intercalate, String.intercalate.go,
        String.data_append, ht]
  · intro h ht
    subst h
    apply String.ext
    simp [fullFormat, tagsBracket, bracket, String.intercalate, String.intercalate.go,
      String.data_append, ht]
  · intro h ht
    cases tags with
    | nil => exact absurd rfl h
    | cons a as =>
      apply String.ext
      simp [fullFormat, tagsBracket, bracket, String.intercalate, String.intercalate.go,
        String.data_append, ht]
  · intro h ht
    subst h
    apply String.ext
    simp [fullFormat, tagsBracket, bracket, String.intercalate, String.intercalate.go,
      String.data_append, ht]

/-- Witness for C14: the calls of the test: with tags and replayed, without tags and
replayed, with tags and not replayed. -/
theorem fullFormat_output_witness :
    fullFormat testRendering INFO ["one", "two"] "hello" 1000 87400
      = "[Dec 31 16:16:40.000] [INFO] [one two] [replayed from Jan  1 16:16:40.000] hello" ∧
    fullFormat testRendering INFO [] "hello" 1000 87400
      = "[Dec 31 16:16:40.000] [INFO] [replayed from Jan  1 16:16:40.000] hello" ∧
    fullFormat testRendering INFO ["one", "two"] "hello" 1000 1000
      = "[Dec 31 16:16:40.000] [INFO] [one two] hello" :=
  ⟨((fullFormat_output testRendering INFO ["one", "two"] "hello" 1000 87400).1
      (by decide) (by decide)).trans (by decide),
    ((fullFormat_output testRendering INFO [] "hello" 1000 87400).2.1
      rfl (by decide)).trans (by decide),
    ((fullFormat_output testRendering INFO ["one", "two"] "hello" 1000 1000).2.2.1
      (by decide) rfl).trans (by decide)⟩

end Logging
